import Mathlib

/-
Verification development for the ACF (Aggregated Channel Features) object
detector of this repository.  The shallow embedding below models:

- the inline functions of src/lib/acf/acf/ACF.h (rgb2luv, fuseChannels),
- the running-mean accumulation of src/app/facecrop/facecrop.cpp
  (FaceJittererMean::cumulativeMovingAverage, computeMeanFace),
- and, where only declarations are present in the header, models built
  from the specification (Options merge, bbNms, chnsCompute, getScales
  or pyramid geometry, classifier tree evaluation).

Machine floating point (float, double) is embedded as exact rationals;
cv::Mat planes are embedded as lists of rationals (pixel values) or
lists of rows.
-/

/- ===================== rgb2luv (ACF.h lines 452-477) ===================== -/

/-- A triple of rational components, embedding cv::Vec3f. -/
structure Vec3 where
  x : ℚ
  y : ℚ
  z : ℚ
deriving DecidableEq

/-- Dot product of two triples, embedding cv::Vec3f::dot. -/
def dot3 (a b : Vec3) : ℚ := a.x * b.x + a.y * b.y + a.z * b.z

/-- The row-major RGB-to-XYZ matrix applied to an rgb triple.  The source
builds the matrix column major and transposes it, so row i of the matrix
applied here is column i of the literal in the source. -/
def rgbToXyz (rgb : Vec3) : Vec3 :=
  ⟨0.430574 * rgb.x + 0.341550 * rgb.y + 0.178325 * rgb.z,
   0.222015 * rgb.x + 0.706655 * rgb.y + 0.071330 * rgb.z,
   0.020183 * rgb.x + 0.129553 * rgb.y + 0.939180 * rgb.z⟩

/-- The weight vector k = (1, 15, 3) of the source. -/
def luvK : Vec3 := ⟨1, 15, 3⟩

/-- The denominator c = xyz.dot(k) + 1e-35 used by rgb2luv to normalize
the chromaticity terms. -/
def luvDenom (rgb : Vec3) : ℚ := dot3 (rgbToXyz rgb) luvK + 1e-35

/-- Embedding of the inline rgb2luv of ACF.h.  The cube root used by the
L branch (std::pow(y, 1/3)) is taken as a parameter, since its value is
irrelevant to the arithmetic structure verified here; every other
constant is the exact decimal written in the source. -/
def rgb2luv (cbrt : ℚ → ℚ) (rgb : Vec3) : Vec3 :=
  let y0 : ℚ := 0.00885645167
  let a : ℚ := 903.296296296
  let un : ℚ := 0.197833
  let vn : ℚ := 0.468331
  let maxi : ℚ := 0.0037037037
  let minu : ℚ := maxi * (-88)
  let minv : ℚ := maxi * (-134)
  let xyz := rgbToXyz rgb
  let c : ℚ := luvDenom rgb
  let z : ℚ := 1 / c
  let l0 : ℚ := (if y0 < xyz.y then 116 * cbrt xyz.y - 16 else xyz.y * a) * maxi
  ⟨l0,
   l0 * ((52 * xyz.x * z) - (13 * un)) - minu,
   l0 * ((117 * xyz.y * z) - (13 * vn)) - minv⟩

/- ===================== fuseChannels (ACF.h lines 479-498) ===================== -/

/-- One channel plane: a list of rows of rational pixel values,
embedding a cv::Mat. -/
abbrev Plane := List (List ℚ)

/-- A multi-plane channel stack, embedding MatP (a vector of cv::Mat
planes sharing one vertically concatenated base). -/
abbrev MatP := List Plane

/-- Embedding of cv::vconcat on a stack of planes: the rows of all
planes concatenated in order. -/
def vconcatRows (stack : List Plane) : Plane := stack.flatten

/-- Embedding of the inline fuseChannels of ACF.h.  The planes of all
inputs are gathered in iteration order into stack, vertically
concatenated into base, and the output planes are re-sliced out of base
in row blocks of the height of the first plane.  The source loop runs
while roi.y < base.rows, overwriting stack entry j with slice j; entries
past the last slice keep their original plane, which the trailing drop
models. -/
def fuseStack (stack : List Plane) : MatP :=
  match stack with
  | [] => []
  | p :: rest =>
    let base := vconcatRows (p :: rest)
    let h := p.length
    let n := if h = 0 then 0 else (base.length + h - 1) / h
    ((List.range n).map (fun j => (base.drop (j * h)).take h)) ++ (p :: rest).drop n

/-- The planes of all inputs gathered in iteration order and re-sliced
from the concatenated base; see fuseStack for the slicing. -/
def fuseChannels (inputs : List MatP) : MatP := fuseStack inputs.flatten

/-- A concrete pair of one-plane stacks of 1 by 1 planes used to
exercise channel fusion on explicit data. -/
def sampleStacks : List MatP := [[[[3]]], [[[7]]]]

/- ============ facecrop.cpp running means (lines 64-79 and 467-490) ============ -/

/-- A face image as a flat list of rational pixel values, embedding
cv::Mat3f under elementwise arithmetic. -/
abbrev FaceMat := List ℚ

/-- Elementwise sum of two matrices, embedding cv::Mat3f operator+. -/
def matAdd (a b : FaceMat) : FaceMat := List.zipWith (fun u v => u + v) a b

/-- Elementwise difference, embedding cv::Mat3f operator-. -/
def matSub (a b : FaceMat) : FaceMat := List.zipWith (fun u v => u - v) a b

/-- Elementwise scaling, embedding scalar * cv::Mat3f. -/
def matScale (c : ℚ) (a : FaceMat) : FaceMat := a.map (fun v => c * v)

/-- Embedding of FaceJittererMean::cumulativeMovingAverage: an empty mu
(modelled as none) is replaced by the sample, otherwise
mu += (x - mu) * (1/n). -/
def cumulativeMovingAverage (mu : Option FaceMat) (x : FaceMat) (n : ℕ) : FaceMat :=
  match mu with
  | none => x
  | some m => matAdd m (matScale (1 / (n : ℚ)) (matSub x m))

/-- One updateMean step: count is pre-incremented and the running mean
updated, as in cumulativeMovingAverage(mu, f, ++count). -/
def updateMeanStep (s : Option FaceMat × ℕ) (x : FaceMat) : Option FaceMat × ℕ :=
  (some (cumulativeMovingAverage s.1 x (s.2 + 1)), s.2 + 1)

/-- The (mu, count) state of one FaceJittererMean after feeding it a list
of samples, starting from the empty mean and zero count. -/
def jittererState (faces : List FaceMat) : Option FaceMat × ℕ :=
  faces.foldl updateMeanStep (none, 0)

/-- Elementwise sum of a list of matrices of common size L. -/
def matSum (L : ℕ) (l : List FaceMat) : FaceMat :=
  l.foldr matAdd (List.replicate L 0)

/-- One accumulation step of computeMeanFace: a thread state with an
empty mean contributes nothing (its weight would multiply an empty
matrix), otherwise its mean scaled by count/total is added. -/
def meanFaceStep (total : ℕ) (acc : Option FaceMat) (s : Option FaceMat × ℕ) : Option FaceMat :=
  match s.1 with
  | none => acc
  | some m =>
    let contrib := matScale ((s.2 : ℚ) / (total : ℚ)) m
    match acc with
    | none => some contrib
    | some a => some (matAdd a contrib)

/-- Embedding of computeMeanFace of facecrop.cpp: the per-thread
jitterer states are combined by first totalling the counts and then
accumulating the count-weighted per-thread means. -/
def computeMeanFace (threads : List (List FaceMat)) : Option FaceMat :=
  let states := threads.map jittererState
  let total : ℕ := (states.map Prod.snd).sum
  states.foldl (meanFaceStep total) none

/-- The elementwise sum of a non-empty list of samples, folded from its
first element; the arithmetic mean of the samples is this sum scaled by
the reciprocal of the sample count. -/
def sumSamples (l : List FaceMat) : FaceMat :=
  match l with
  | [] => []
  | x :: xs => xs.foldl matAdd x

/-- A concrete two-thread sample family used to exercise the mean
combination on explicit data. -/
def sampleThreads : List (List FaceMat) := [[[1, 3]], [[5, 7]]]

/- ===================== Options model (ACF.h lines 57-228) ===================== -/

/-- Modelled from the spec: the drishti ACFField optional-field wrapper
(declared in acf/ACFField.h, not under src).  A field independently
tracks has-explicit-value against uses-default, per section 4.5 of the
specification. -/
structure ACFField (α : Type) where
  has : Bool
  value : α
deriving DecidableEq

/-- Modelled from the spec: merge of one leaf field, taking the
override's value exactly when the override field is explicitly set and
inheriting the base otherwise. -/
def fieldMerge {α : Type} (dst src : ACFField α) : ACFField α :=
  if src.has then src else dst

/-- Modelled from the spec: merge of a field holding a nested group,
recursing into the group with the supplied group merge and marking the
result set when either side is set. -/
def groupMerge {α : Type} (m : α → α → α) (dst src : ACFField α) : ACFField α :=
  ⟨dst.has || src.has, m dst.value src.value⟩

/-- Color channel family options (Options::Pyramid::Chns::Color). -/
structure Options.Pyramid.Chns.Color where
  enabled : ACFField ℤ
  smooth : ACFField ℚ
  colorSpace : ACFField String
deriving DecidableEq

/-- Gradient magnitude family options (Options::Pyramid::Chns::GradMag). -/
structure Options.Pyramid.Chns.GradMag where
  enabled : ACFField ℤ
  colorChn : ACFField ℤ
  normRad : ACFField ℤ
  normConst : ACFField ℚ
  full : ACFField ℤ
deriving DecidableEq

/-- Gradient histogram family options (Options::Pyramid::Chns::GradHist). -/
structure Options.Pyramid.Chns.GradHist where
  enabled : ACFField ℤ
  binSize : ACFField ℤ
  nOrients : ACFField ℤ
  softBin : ACFField ℤ
  useHog : ACFField ℤ
  clipHog : ACFField ℚ
deriving DecidableEq

/-- Custom channel family options; the source declares no fields. -/
structure Options.Pyramid.Chns.Custom where
deriving DecidableEq

/-- Channel computation options (Options::Pyramid::Chns). -/
structure Options.Pyramid.Chns where
  shrink : ACFField ℤ
  pColor : ACFField Options.Pyramid.Chns.Color
  pGradMag : ACFField Options.Pyramid.Chns.GradMag
  pGradHist : ACFField Options.Pyramid.Chns.GradHist
  pCustom : ACFField Options.Pyramid.Chns.Custom
  complete : ACFField ℤ
deriving DecidableEq

/-- Pyramid options (Options::Pyramid); cv::Size becomes a pair of
integers. -/
structure Options.Pyramid where
  pChns : ACFField Options.Pyramid.Chns
  nPerOct : ACFField ℤ
  nOctUp : ACFField ℤ
  nApprox : ACFField ℤ
  lambdas : ACFField (List ℚ)
  pad : ACFField (ℤ × ℤ)
  minDs : ACFField (ℤ × ℤ)
  smooth : ACFField ℚ
  concat : ACFField ℤ
  complete : ACFField ℤ
deriving DecidableEq

/-- Non maximum suppression options (Options::Nms). -/
structure Options.Nms where
  type : ACFField String
  thr : ACFField ℚ
  maxn : ACFField ℚ
  radii : ACFField (List ℚ)
  overlap : ACFField ℚ
  ovrDnm : ACFField String
  separate : ACFField ℤ
deriving DecidableEq

/-- Boosted tree training options (Options::Boost::Tree). -/
structure Options.Boost.Tree where
  nBins : ACFField ℤ
  maxDepth : ACFField ℤ
  minWeight : ACFField ℚ
  fracFtrs : ACFField ℚ
  nThreads : ACFField ℤ
deriving DecidableEq

/-- Boosting options (Options::Boost). -/
structure Options.Boost where
  pTree : ACFField Options.Boost.Tree
  nWeak : ACFField ℤ
  discrete : ACFField ℤ
  verbose : ACFField ℤ
deriving DecidableEq

/-- Jitter options (Options::Jitter). -/
structure Options.Jitter where
  flip : ACFField ℤ
deriving DecidableEq

/-- The full detector options tree (Detector::Options). -/
structure Options where
  pPyramid : ACFField Options.Pyramid
  modelDs : ACFField (ℤ × ℤ)
  modelDsPad : ACFField (ℤ × ℤ)
  pNms : ACFField Options.Nms
  stride : ACFField ℤ
  cascThr : ACFField ℚ
  cascCal : ACFField ℚ
  nWeak : ACFField (List ℤ)
  pBoost : ACFField Options.Boost
  seed : ACFField ℚ
  name : ACFField String
  posGtDir : ACFField String
  posImgDir : ACFField String
  negImgDir : ACFField String
  posWinDir : ACFField String
  negWinDir : ACFField String
  nPos : ACFField ℤ
  nNeg : ACFField ℤ
  nPerNeg : ACFField ℤ
  nAccNeg : ACFField ℤ
  pJitter : ACFField Options.Jitter
  winsSave : ACFField ℤ
deriving DecidableEq

/-- Modelled from the spec: Options::Pyramid::Chns::Color::merge.  The
mode argument selects strict against permissive treatment of unknown
fields, which the typed embedding cannot exhibit, so it is unused. -/
def Options.Pyramid.Chns.Color.merge (dst src : Options.Pyramid.Chns.Color)
    (_mode : ℤ) : Options.Pyramid.Chns.Color :=
  ⟨fieldMerge dst.enabled src.enabled,
   fieldMerge dst.smooth src.smooth,
   fieldMerge dst.colorSpace src.colorSpace⟩

/-- Modelled from the spec: Options::Pyramid::Chns::GradMag::merge. -/
def Options.Pyramid.Chns.GradMag.merge (dst src : Options.Pyramid.Chns.GradMag)
    (_mode : ℤ) : Options.Pyramid.Chns.GradMag :=
  ⟨fieldMerge dst.enabled src.enabled,
   fieldMerge dst.colorChn src.colorChn,
   fieldMerge dst.normRad src.normRad,
   fieldMerge dst.normConst src.normConst,
   fieldMerge dst.full src.full⟩

/-- Modelled from the spec: Options::Pyramid::Chns::GradHist::merge. -/
def Options.Pyramid.Chns.GradHist.merge (dst src : Options.Pyramid.Chns.GradHist)
    (_mode : ℤ) : Options.Pyramid.Chns.GradHist :=
  ⟨fieldMerge dst.enabled src.enabled,
   fieldMerge dst.binSize src.binSize,
   fieldMerge dst.nOrients src.nOrients,
   fieldMerge dst.softBin src.softBin,
   fieldMerge dst.useHog src.useHog,
   fieldMerge dst.clipHog src.clipHog⟩

/-- Modelled from the spec: Options::Pyramid::Chns::Custom::merge; the
source marks the struct TODO with no fields, so merge is the identity on
the destination. -/
def Options.Pyramid.Chns.Custom.merge (dst _src : Options.Pyramid.Chns.Custom)
    (_mode : ℤ) : Options.Pyramid.Chns.Custom := dst

/-- Modelled from the spec: Options::Pyramid::Chns::merge, recursing
through the nested family groups. -/
def Options.Pyramid.Chns.merge (dst src : Options.Pyramid.Chns)
    (mode : ℤ) : Options.Pyramid.Chns :=
  ⟨fieldMerge dst.shrink src.shrink,
   groupMerge (fun a b => Options.Pyramid.Chns.Color.merge a b mode) dst.pColor src.pColor,
   groupMerge (fun a b => Options.Pyramid.Chns.GradMag.merge a b mode) dst.pGradMag src.pGradMag,
   groupMerge (fun a b => Options.Pyramid.Chns.GradHist.merge a b mode) dst.pGradHist src.pGradHist,
   groupMerge (fun a b => Options.Pyramid.Chns.Custom.merge a b mode) dst.pCustom src.pCustom,
   fieldMerge dst.complete src.complete⟩

/-- Modelled from the spec: Options::Pyramid::merge. -/
def Options.Pyramid.merge (dst src : Options.Pyramid) (mode : ℤ) : Options.Pyramid :=
  ⟨groupMerge (fun a b => Options.Pyramid.Chns.merge a b mode) dst.pChns src.pChns,
   fieldMerge dst.nPerOct src.nPerOct,
   fieldMerge dst.nOctUp src.nOctUp,
   fieldMerge dst.nApprox src.nApprox,
   fieldMerge dst.lambdas src.lambdas,
   fieldMerge dst.pad src.pad,
   fieldMerge dst.minDs src.minDs,
   fieldMerge dst.smooth src.smooth,
   fieldMerge dst.concat src.concat,
   fieldMerge dst.complete src.complete⟩

/-- Modelled from the spec: Options::Nms::merge. -/
def Options.Nms.merge (dst src : Options.Nms) (_mode : ℤ) : Options.Nms :=
  ⟨fieldMerge dst.type src.type,
   fieldMerge dst.thr src.thr,
   fieldMerge dst.maxn src.maxn,
   fieldMerge dst.radii src.radii,
   fieldMerge dst.overlap src.overlap,
   fieldMerge dst.ovrDnm src.ovrDnm,
   fieldMerge dst.separate src.separate⟩

/-- Modelled from the spec: Options::Boost::Tree::merge. -/
def Options.Boost.Tree.merge (dst src : Options.Boost.Tree) (_mode : ℤ) : Options.Boost.Tree :=
  ⟨fieldMerge dst.nBins src.nBins,
   fieldMerge dst.maxDepth src.maxDepth,
   fieldMerge dst.minWeight src.minWeight,
   fieldMerge dst.fracFtrs src.fracFtrs,
   fieldMerge dst.nThreads src.nThreads⟩

/-- Modelled from the spec: Options::Boost::merge. -/
def Options.Boost.merge (dst src : Options.Boost) (mode : ℤ) : Options.Boost :=
  ⟨groupMerge (fun a b => Options.Boost.Tree.merge a b mode) dst.pTree src.pTree,
   fieldMerge dst.nWeak src.nWeak,
   fieldMerge dst.discrete src.discrete,
   fieldMerge dst.verbose src.verbose⟩

/-- Modelled from the spec: Options::Jitter::merge. -/
def Options.Jitter.merge (dst src : Options.Jitter) (_mode : ℤ) : Options.Jitter :=
  ⟨fieldMerge dst.flip src.flip⟩

/-- Modelled from the spec: Detector::Options::merge (ACF.h line 226),
replacing exactly the fields explicitly set in the override, recursively
through nested groups. -/
def Options.merge (dst src : Options) (mode : ℤ) : Options :=
  ⟨groupMerge (fun a b => Options.Pyramid.merge a b mode) dst.pPyramid src.pPyramid,
   fieldMerge dst.modelDs src.modelDs,
   fieldMerge dst.modelDsPad src.modelDsPad,
   groupMerge (fun a b => Options.Nms.merge a b mode) dst.pNms src.pNms,
   fieldMerge dst.stride src.stride,
   fieldMerge dst.cascThr src.cascThr,
   fieldMerge dst.cascCal src.cascCal,
   fieldMerge dst.nWeak src.nWeak,
   groupMerge (fun a b => Options.Boost.merge a b mode) dst.pBoost src.pBoost,
   fieldMerge dst.seed src.seed,
   fieldMerge dst.name src.name,
   fieldMerge dst.posGtDir src.posGtDir,
   fieldMerge dst.posImgDir src.posImgDir,
   fieldMerge dst.negImgDir src.negImgDir,
   fieldMerge dst.posWinDir src.posWinDir,
   fieldMerge dst.negWinDir src.negWinDir,
   fieldMerge dst.nPos src.nPos,
   fieldMerge dst.nNeg src.nNeg,
   fieldMerge dst.nPerNeg src.nPerNeg,
   fieldMerge dst.nAccNeg src.nAccNeg,
   groupMerge (fun a b => Options.Jitter.merge a b mode) dst.pJitter src.pJitter,
   fieldMerge dst.winsSave src.winsSave⟩

/-- No field of the Color group is explicitly set. -/
def Options.Pyramid.Chns.Color.allUnset (o : Options.Pyramid.Chns.Color) : Prop :=
  o.enabled.has = false ∧ o.smooth.has = false ∧ o.colorSpace.has = false

/-- No field of the GradMag group is explicitly set. -/
def Options.Pyramid.Chns.GradMag.allUnset (o : Options.Pyramid.Chns.GradMag) : Prop :=
  o.enabled.has = false ∧ o.colorChn.has = false ∧ o.normRad.has = false ∧
    o.normConst.has = false ∧ o.full.has = false

/-- No field of the GradHist group is explicitly set. -/
def Options.Pyramid.Chns.GradHist.allUnset (o : Options.Pyramid.Chns.GradHist) : Prop :=
  o.enabled.has = false ∧ o.binSize.has = false ∧ o.nOrients.has = false ∧
    o.softBin.has = false ∧ o.useHog.has = false ∧ o.clipHog.has = false

/-- No field of the Chns group is explicitly set, recursively. -/
def Options.Pyramid.Chns.allUnset (o : Options.Pyramid.Chns) : Prop :=
  o.shrink.has = false ∧
    (o.pColor.has = false ∧ o.pColor.value.allUnset) ∧
    (o.pGradMag.has = false ∧ o.pGradMag.value.allUnset) ∧
    (o.pGradHist.has = false ∧ o.pGradHist.value.allUnset) ∧
    o.pCustom.has = false ∧
    o.complete.has = false

/-- No field of the Pyramid group is explicitly set, recursively. -/
def Options.Pyramid.allUnset (o : Options.Pyramid) : Prop :=
  (o.pChns.has = false ∧ o.pChns.value.allUnset) ∧
    o.nPerOct.has = false ∧ o.nOctUp.has = false ∧ o.nApprox.has = false ∧
    o.lambdas.has = false ∧ o.pad.has = false ∧ o.minDs.has = false ∧
    o.smooth.has = false ∧ o.concat.has = false ∧ o.complete.has = false

/-- No field of the Nms group is explicitly set. -/
def Options.Nms.allUnset (o : Options.Nms) : Prop :=
  o.type.has = false ∧ o.thr.has = false ∧ o.maxn.has = false ∧ o.radii.has = false ∧
    o.overlap.has = false ∧ o.ovrDnm.has = false ∧ o.separate.has = false

/-- No field of the Boost::Tree group is explicitly set. -/
def Options.Boost.Tree.allUnset (o : Options.Boost.Tree) : Prop :=
  o.nBins.has = false ∧ o.maxDepth.has = false ∧ o.minWeight.has = false ∧
    o.fracFtrs.has = false ∧ o.nThreads.has = false

/-- No field of the Boost group is explicitly set, recursively. -/
def Options.Boost.allUnset (o : Options.Boost) : Prop :=
  (o.pTree.has = false ∧ o.pTree.value.allUnset) ∧
    o.nWeak.has = false ∧ o.discrete.has = false ∧ o.verbose.has = false

/-- No field of the Jitter group is explicitly set. -/
def Options.Jitter.allUnset (o : Options.Jitter) : Prop :=
  o.flip.has = false

/-- No field of the whole options tree is explicitly set, recursively:
the empty override of the merge identity law. -/
def Options.allUnset (o : Options) : Prop :=
  (o.pPyramid.has = false ∧ o.pPyramid.value.allUnset) ∧
    o.modelDs.has = false ∧ o.modelDsPad.has = false ∧
    (o.pNms.has = false ∧ o.pNms.value.allUnset) ∧
    o.stride.has = false ∧ o.cascThr.has = false ∧ o.cascCal.has = false ∧
    o.nWeak.has = false ∧
    (o.pBoost.has = false ∧ o.pBoost.value.allUnset) ∧
    o.seed.has = false ∧ o.name.has = false ∧ o.posGtDir.has = false ∧
    o.posImgDir.has = false ∧ o.negImgDir.has = false ∧ o.posWinDir.has = false ∧
    o.negWinDir.has = false ∧ o.nPos.has = false ∧ o.nNeg.has = false ∧
    o.nPerNeg.has = false ∧ o.nAccNeg.has = false ∧
    (o.pJitter.has = false ∧ o.pJitter.value.allUnset) ∧
    o.winsSave.has = false

/- ============== Classifier and cascade evaluation (ACF.h 232-260, 387) ============== -/

/-- Modelled from the spec: the stored boosted tree ensemble
(Detector::Classifier), parallel arrays indexed by (tree, node): feature
ids, thresholds, 1-indexed child indices with 0 marking a leaf, and leaf
scores (half log odds).  Machine floats become rationals. -/
structure Classifier where
  fids : ℕ → ℕ → ℕ
  thrs : ℕ → ℕ → ℚ
  child : ℕ → ℕ → ℕ
  hs : ℕ → ℕ → ℚ

/-- Modelled from the spec: Detector::Classifier::getScaledThresholds
(ACF.h line 259): the pre-scaled integer-domain threshold table thrsU8,
each threshold multiplied by 255, used when the channel tensor is stored
at 8-bit precision. -/
def getScaledThresholds (c : Classifier) : Classifier :=
  { c with thrs := fun t k => 255 * c.thrs t k }

/-- Modelled from the spec: evaluation of one boosted tree over a window
feature vector x.  Starting from a node, while the 1-indexed child entry
is nonzero the window value at the feature id is compared against the
threshold and evaluation descends to child-1 or child; a zero child
marks a leaf whose score is returned.  Fuel bounds the descent so the
definition is total; any fuel at least the node count suffices for a
well formed tree. -/
def treeEval (c : Classifier) (x : ℕ → ℚ) (t : ℕ) : ℕ → ℕ → ℚ
  | 0, k => c.hs t k
  | fuel + 1, k =>
    if c.child t k = 0 then c.hs t k
    else treeEval c x t fuel
      (if x (c.fids t k) < c.thrs t k then c.child t k - 1 else c.child t k)

/-- Modelled from the spec: the window score of the ensemble, the sum of
the root-to-leaf scores of the first nWeak trees. -/
def ensembleScore (c : Classifier) (nWeak : ℕ) (x : ℕ → ℚ) (fuel : ℕ) : ℚ :=
  ((List.range nWeak).map (fun t => treeEval c x t fuel 0)).sum

/-- Modelled from the spec: well formedness of one stored tree with n
nodes: every child index is either the leaf mark 0 or designates a valid
deeper node of the same tree, so both descent targets child-1 and child
are in range and strictly beyond the current node. -/
def wellFormedTree (c : Classifier) (t : ℕ) (n : ℕ) : Prop :=
  ∀ k, k < n → c.child t k = 0 ∨ (k + 1 < c.child t k ∧ c.child t k < n)

/- ===================== bbNms (ACF.h line 389, spec 4.4) ===================== -/

/-- A detection: an integer rectangle in image coordinates plus a
rational score, embedding Detector::Detection. -/
structure Detection where
  x : ℤ
  y : ℤ
  width : ℤ
  height : ℤ
  score : ℚ
deriving DecidableEq

/-- Descending score order on detections. -/
def detGe (a b : Detection) : Prop := b.score ≤ a.score

instance : DecidableRel detGe := fun a b => inferInstanceAs (Decidable (b.score ≤ a.score))

instance : IsTotal Detection detGe := ⟨fun a b => le_total b.score a.score⟩

instance : IsTrans Detection detGe := ⟨fun _ _ _ hab hbc => le_trans hbc hab⟩

/-- Area of the intersection of two detection rectangles. -/
def interArea (a b : Detection) : ℤ :=
  max 0 (min (a.x + a.width) (b.x + b.width) - max a.x b.x) *
    max 0 (min (a.y + a.height) (b.y + b.height) - max a.y b.y)

/-- Area of one detection rectangle. -/
def bbArea (a : Detection) : ℤ := a.width * a.height

/-- Modelled from the spec: the overlap ratio of two detections, the
intersection area over either the minimum of the two areas or the union
area, selected by the ovrDnm option. -/
def overlapRatio (ovrDnm : String) (a b : Detection) : ℚ :=
  let i : ℚ := (interArea a b : ℚ)
  let d : ℚ :=
    if ovrDnm = "min" then (min (bbArea a) (bbArea b) : ℚ)
    else ((bbArea a : ℚ) + (bbArea b : ℚ) - (interArea a b : ℚ))
  i / d

/-- Modelled from the spec: the greedy max suppression pass.  The input
is already in descending score order; the head is kept and every later
candidate whose overlap with it exceeds the overlap threshold is
discarded before the rest is processed. -/
def nmsMax (ovrDnm : String) (ov : ℚ) : List Detection → List Detection
  | [] => []
  | d :: rest =>
    d :: nmsMax ovrDnm ov (rest.filter (fun e => decide (overlapRatio ovrDnm d e ≤ ov)))
termination_by l => l.length
decreasing_by
  simp only [List.length_cons]
  exact Nat.lt_succ_of_le (List.length_filter_le _ _)

/-- Modelled from the spec: the ordered, thresholded candidate list of
Detector::bbNms: candidates sorted by descending score with candidates
scoring below the thr option discarded. -/
def bbNmsKept (p : Options.Nms) (dets : List Detection) : List Detection :=
  (List.insertionSort detGe dets).filter (fun d => decide (p.thr.value ≤ d.score))

/-- Modelled from the spec: Detector::bbNms (ACF.h line 389), as a
partial model over the type option.  The none type is a passthrough of
the ordered, thresholded candidates and the max type runs the greedy
overlap suppression on them.  The spec describes the maxg type (greedy
variant on score-sorted groups), the ms type (mean-shift clustering on
per-axis radii thresholded at thr, which can emit merged boxes) and the
cover type (a minimal covering set) in one line each, which is not
enough to model a suppressor for them; for those types this model
returns no result rather than substituting a different suppressor. -/
def bbNms (p : Options.Nms) (dets : List Detection) : Option (List Detection) :=
  if p.type.value = "none" then some (bbNmsKept p dets)
  else if p.type.value = "max" then
    some (nmsMax p.ovrDnm.value p.overlap.value (bbNmsKept p dets))
  else none

/- ===================== chnsCompute (ACF.h line 291, spec 4.1) ===================== -/

/-- The resolved channel parameters chnsCompute consumes after defaults
and merge: the shrink factor, the per-family enable flags, and the
histogram cell geometry. -/
structure ChnsSpec where
  shrink : ℕ
  colorEnabled : Bool
  gradMagEnabled : Bool
  gradHistEnabled : Bool
  nOrients : ℕ
  binSize : ℕ
  useHog : Bool
deriving DecidableEq

/-- Channels contributed by the color family: the three planes of the
working color space when enabled. -/
def colorChns (p : ChnsSpec) : ℕ := if p.colorEnabled then 3 else 0

/-- Channels contributed by the gradient magnitude family. -/
def gradMagChns (p : ChnsSpec) : ℕ := if p.gradMagEnabled then 1 else 0

/-- Channels contributed by the gradient histogram family: nOrients
planes, doubled when the useHog variant concatenates a coarser
unnormalized copy. -/
def gradHistChns (p : ChnsSpec) : ℕ :=
  if p.gradHistEnabled then (if p.useHog then 2 * p.nOrients else p.nOrients) else 0

/-- The total channel count implied by the enabled families, in the
fixed family order color, magnitude, histogram. -/
def nChannels (p : ChnsSpec) : ℕ := colorChns p + gradMagChns p + gradHistChns p

/-- The error kinds chnsCompute can signal, carrying the field or stage
context of section 7 of the specification. -/
inductive AcfError where
  | invalidInput : String → AcfError
  | configurationError : String → AcfError
deriving DecidableEq

/-- The populated channel structure summary: geometry after shrink and
the channel counts, mirroring Detector::Channels. -/
structure ChannelsOut where
  hOut : ℕ
  wOut : ℕ
  nTypes : ℕ
  nChns : ℕ
deriving DecidableEq

/-- Modelled from the spec: Detector::chnsCompute (ACF.h line 291).  An
empty input image is an InvalidInput error, a shrink that does not
evenly divide the histogram cell size is a ConfigurationError, and only
otherwise is the channel structure populated; returning through Except
makes partial population impossible. -/
def chnsCompute (h w : ℕ) (p : ChnsSpec) : Except AcfError ChannelsOut :=
  if h = 0 ∨ w = 0 then
    Except.error (AcfError.invalidInput "chnsCompute: input image I is empty")
  else if ¬ (p.shrink ∣ p.binSize) then
    Except.error (AcfError.configurationError
      "chnsCompute: shrink must evenly divide the gradient histogram binSize")
  else
    Except.ok
      { hOut := h / p.shrink
        wOut := w / p.shrink
        nTypes := (if p.colorEnabled then 1 else 0) + (if p.gradMagEnabled then 1 else 0) +
          (if p.gradHistEnabled then 1 else 0)
        nChns := nChannels p }

/- ============== Pyramid geometry (ACF.h 305-321, 364, spec 4.2) ============== -/

/-- Rounding to the nearest integer as the source C code does for
positive sizes: the floor of the value plus one half. -/
def rnd (q : ℚ) : ℤ := ⌊q + 1 / 2⌋

/-- Modelled from the spec: the pre-padding channel tensor extent of one
pyramid level along one axis: the input extent times the level scale,
divided by the shrink factor, rounded. -/
def levelExtent (d : ℕ) (shrink : ℕ) (s : ℚ) : ℤ := rnd ((d * s) / shrink)

/-- One pyramid level: padded height and width of the channel tensor,
its channel count, and the relative scale it was computed at. -/
structure PyrLevel where
  h : ℕ
  w : ℕ
  nChns : ℕ
  scale : ℚ
deriving DecidableEq

/-- Modelled from the spec: the geometry assembled by chnsPyramid
(Detector::Pyramid, ACF.h 305-321).  Scales whose shrink-adjusted size
rounds to zero are dropped rather than failing; each surviving scale
yields a level whose tensor is the rounded scaled extent plus the
shrink-adjusted padding on both sides, and whose channel count comes
from the channel parameters alone. -/
def buildPyramid (h w : ℕ) (padH padW : ℕ) (p : ChnsSpec) (scales : List ℚ) : List PyrLevel :=
  (scales.filter (fun s =>
      decide (0 < levelExtent h p.shrink s) && decide (0 < levelExtent w p.shrink s))).map
    (fun s =>
      { h := (levelExtent h p.shrink s).toNat + 2 * (padH / p.shrink)
        w := (levelExtent w p.shrink s).toNat + 2 * (padW / p.shrink)
        nChns := nChannels p
        scale := s })

/- ============== Sample option trees with a uniform set flag ============== -/

/-- A Color group with every set flag equal to f and default values. -/
def constColor (f : Bool) : Options.Pyramid.Chns.Color := ⟨⟨f, 0⟩, ⟨f, 0⟩, ⟨f, "luv"⟩⟩

/-- A GradMag group with every set flag equal to f. -/
def constGradMag (f : Bool) : Options.Pyramid.Chns.GradMag :=
  ⟨⟨f, 0⟩, ⟨f, 0⟩, ⟨f, 0⟩, ⟨f, 0⟩, ⟨f, 0⟩⟩

/-- A GradHist group with every set flag equal to f. -/
def constGradHist (f : Bool) : Options.Pyramid.Chns.GradHist :=
  ⟨⟨f, 0⟩, ⟨f, 0⟩, ⟨f, 0⟩, ⟨f, 0⟩, ⟨f, 0⟩, ⟨f, 0⟩⟩

/-- A Chns group with every set flag equal to f, recursively. -/
def constChns (f : Bool) : Options.Pyramid.Chns :=
  ⟨⟨f, 0⟩, ⟨f, constColor f⟩, ⟨f, constGradMag f⟩, ⟨f, constGradHist f⟩, ⟨f, ⟨⟩⟩, ⟨f, 0⟩⟩

/-- A Pyramid group with every set flag equal to f, recursively. -/
def constPyramidOpts (f : Bool) : Options.Pyramid :=
  ⟨⟨f, constChns f⟩, ⟨f, 0⟩, ⟨f, 0⟩, ⟨f, 0⟩, ⟨f, []⟩, ⟨f, (0, 0)⟩, ⟨f, (0, 0)⟩,
    ⟨f, 0⟩, ⟨f, 0⟩, ⟨f, 0⟩⟩

/-- An Nms group with every set flag equal to f. -/
def constNms (f : Bool) : Options.Nms :=
  ⟨⟨f, "max"⟩, ⟨f, 0⟩, ⟨f, 0⟩, ⟨f, []⟩, ⟨f, 1/2⟩, ⟨f, "union"⟩, ⟨f, 0⟩⟩

/-- A Boost::Tree group with every set flag equal to f. -/
def constBoostTree (f : Bool) : Options.Boost.Tree :=
  ⟨⟨f, 0⟩, ⟨f, 0⟩, ⟨f, 0⟩, ⟨f, 0⟩, ⟨f, 0⟩⟩

/-- A Boost group with every set flag equal to f, recursively. -/
def constBoost (f : Bool) : Options.Boost :=
  ⟨⟨f, constBoostTree f⟩, ⟨f, 0⟩, ⟨f, 0⟩, ⟨f, 0⟩⟩

/-- A full options tree with every set flag equal to f, recursively:
with f false this is an override in which no field is set. -/
def constOptions (f : Bool) : Options :=
  ⟨⟨f, constPyramidOpts f⟩, ⟨f, (0, 0)⟩, ⟨f, (0, 0)⟩, ⟨f, constNms f⟩, ⟨f, 0⟩, ⟨f, 0⟩,
    ⟨f, 0⟩, ⟨f, []⟩, ⟨f, constBoost f⟩, ⟨f, 0⟩, ⟨f, "acf"⟩, ⟨f, ""⟩, ⟨f, ""⟩, ⟨f, ""⟩,
    ⟨f, ""⟩, ⟨f, ""⟩, ⟨f, 0⟩, ⟨f, 0⟩, ⟨f, 0⟩, ⟨f, 0⟩, ⟨f, Options.Jitter.mk ⟨f, 0⟩⟩, ⟨f, 0⟩⟩

/- ===================== Theorems ===================== -/

/-- Claim C8: rgb2luv is total on finite inputs: the denominator it uses
to normalize the chromaticity terms is the dot product of the XYZ vector
with (1,15,3) plus the constant 1e-35, so for every input with
non-negative components that denominator is strictly positive and its
reciprocal is a genuine multiplicative inverse, making the returned Luv
triple well defined. -/
theorem rgb2luv_total_on_nonneg (rgb : Vec3)
    (hr : 0 ≤ rgb.x) (hg : 0 ≤ rgb.y) (hb : 0 ≤ rgb.z) :
    0 < luvDenom rgb ∧ luvDenom rgb * (1 / luvDenom rgb) = 1 := by
  have h0 : 0 < luvDenom rgb := by
    unfold luvDenom dot3 rgbToXyz luvK
    simp only
    nlinarith [hr, hg, hb]
  exact ⟨h0, mul_one_div_cancel (ne_of_gt h0)⟩

/-- Witness for C8 at the all-black pixel (0,0,0). -/
theorem rgb2luv_total_on_nonneg_witness :
    ((0:ℚ) ≤ (Vec3.mk 0 0 0).x ∧ (0:ℚ) ≤ (Vec3.mk 0 0 0).y ∧ (0:ℚ) ≤ (Vec3.mk 0 0 0).z) ∧
      (0 < luvDenom (Vec3.mk 0 0 0) ∧
        luvDenom (Vec3.mk 0 0 0) * (1 / luvDenom (Vec3.mk 0 0 0)) = 1) :=
  ⟨⟨by norm_num, by norm_num, by norm_num⟩,
    rgb2luv_total_on_nonneg (Vec3.mk 0 0 0) (by norm_num) (by norm_num) (by norm_num)⟩

/-- Evaluating one tree with the 255-scaled threshold table on stored
8-bit channel values takes exactly the branches the floating table takes
on the values divided by 255, because dividing by the positive constant
255 preserves every comparison. -/
theorem treeEval_scaled (c : Classifier) (u : ℕ → ℚ) (t : ℕ) :
    ∀ fuel k, treeEval (getScaledThresholds c) u t fuel k =
      treeEval c (fun i => u i / 255) t fuel k := by
  intro fuel
  induction fuel with
  | zero => intro k; rfl
  | succ f ih =>
    intro k
    show (if c.child t k = 0 then c.hs t k
        else treeEval (getScaledThresholds c) u t f
          (if u (c.fids t k) < 255 * c.thrs t k then c.child t k - 1 else c.child t k)) =
      (if c.child t k = 0 then c.hs t k
        else treeEval c (fun i => u i / 255) t f
          (if u (c.fids t k) / 255 < c.thrs t k then c.child t k - 1 else c.child t k))
    have hcond : (u (c.fids t k) < 255 * c.thrs t k) ↔ (u (c.fids t k) / 255 < c.thrs t k) := by
      rw [div_lt_iff₀ (by norm_num : (0:ℚ) < 255), mul_comm]
    rw [if_congr Iff.rfl rfl (by rw [if_congr hcond rfl rfl, ih])]

/-- Claim C1: for every window feature vector sampled from a channel
tensor stored at 8-bit precision, the CascadeEvaluator score computed
with the pre-scaled integer threshold table equals the score computed
with the floating threshold table on the 255-normalized values; the two
paths agree exactly, hence within any quantization tolerance. -/
theorem integer_and_float_score_paths_agree (c : Classifier) (nWeak : ℕ) (u : ℕ → ℚ)
    (fuel : ℕ) :
    ensembleScore (getScaledThresholds c) nWeak u fuel =
      ensembleScore c nWeak (fun i => u i / 255) fuel := by
  unfold ensembleScore
  congr 1
  exact List.map_congr_left (fun t _ => treeEval_scaled c u t fuel 0)

/-- Claim C6: chnsCompute signals an error and populates nothing when
the input image is empty or shrink does not evenly relate to the
requested cell geometry; the error is surfaced to the caller as an
error value, never a silently defaulted channel structure. -/
theorem chnsCompute_signals_errors (h w : ℕ) (p : ChnsSpec)
    (hbad : h = 0 ∨ w = 0 ∨ ¬ p.shrink ∣ p.binSize) :
    ∃ e, chnsCompute h w p = Except.error e := by
  by_cases himg : h = 0 ∨ w = 0
  · exact ⟨AcfError.invalidInput "chnsCompute: input image I is empty",
      by simp [chnsCompute, himg]⟩
  · have hdvd : ¬ p.shrink ∣ p.binSize := by
      rcases hbad with h0 | w0 | hd
      · exact absurd (Or.inl h0) himg
      · exact absurd (Or.inr w0) himg
      · exact hd
    exact ⟨AcfError.configurationError
        "chnsCompute: shrink must evenly divide the gradient histogram binSize",
      by simp [chnsCompute, himg, hdvd]⟩

/-- Witness for C6 on an empty image. -/
theorem chnsCompute_signals_errors_witness :
    ((0:ℕ) = 0 ∨ (5:ℕ) = 0 ∨ ¬ (2:ℕ) ∣ (4:ℕ)) ∧
      ∃ e, chnsCompute 0 5 ⟨2, true, true, true, 6, 4, false⟩ = Except.error e :=
  ⟨Or.inl rfl, chnsCompute_signals_errors 0 5 ⟨2, true, true, true, 6, 4, false⟩ (Or.inl rfl)⟩

/-- In a well formed tree, evaluation started below the node count with
enough fuel always stops at a node whose child index is 0 and returns
that leaf score; every node it visits is a valid node of the tree. -/
theorem treeEval_reaches_leaf (c : Classifier) (x : ℕ → ℚ) (t n : ℕ)
    (hwf : wellFormedTree c t n) :
    ∀ fuel k, k < n → n - k ≤ fuel →
      ∃ j, j < n ∧ c.child t j = 0 ∧ treeEval c x t fuel k = c.hs t j := by
  intro fuel
  induction fuel with
  | zero => intro k hk hle; omega
  | succ f ih =>
    intro k hk hle
    by_cases hleaf : c.child t k = 0
    · exact ⟨k, hk, hleaf, by simp [treeEval, hleaf]⟩
    · rcases hwf k hk with h0 | ⟨hgt, hlt⟩
      · exact absurd h0 hleaf
      · have hstep : ∀ k2, k2 = (if x (c.fids t k) < c.thrs t k then c.child t k - 1
            else c.child t k) →
            ∃ j, j < n ∧ c.child t j = 0 ∧ treeEval c x t f k2 = c.hs t j := by
          intro k2 hk2
          have hk2lt : k2 < n := by rw [hk2]; split <;> omega
          have hk2gt : k < k2 := by rw [hk2]; split <;> omega
          exact ih k2 hk2lt (by omega)
        rcases hstep _ rfl with ⟨j, hj, hcj, hev⟩
        refine ⟨j, hj, hcj, ?_⟩
        show (if c.child t k = 0 then c.hs t k
            else treeEval c x t f
              (if x (c.fids t k) < c.thrs t k then c.child t k - 1 else c.child t k)) = c.hs t j
        rw [if_neg hleaf, hev]

/-- Claim C7: in a stored classifier tree whose nonzero child indices
all designate valid deeper nodes, a node is treated as a leaf by tree
evaluation exactly when its child index is 0: evaluation from the root
terminates at such a node and returns its stored score, a zero child
returns the node score immediately, and a nonzero child always descends
to the designated child node. -/
theorem leaf_marking_governs_eval (c : Classifier) (x : ℕ → ℚ) (t n : ℕ)
    (hwf : wellFormedTree c t n) (hn : 0 < n) :
    (∃ j, j < n ∧ c.child t j = 0 ∧ treeEval c x t n 0 = c.hs t j) ∧
      (∀ fuel k, c.child t k = 0 → treeEval c x t (fuel + 1) k = c.hs t k) ∧
      (∀ fuel k, c.child t k ≠ 0 →
        treeEval c x t (fuel + 1) k =
          treeEval c x t fuel
            (if x (c.fids t k) < c.thrs t k then c.child t k - 1 else c.child t k)) := by
  refine ⟨treeEval_reaches_leaf c x t n hwf n 0 hn (by omega), ?_, ?_⟩
  · intro fuel k hk
    simp [treeEval, hk]
  · intro fuel k hk
    simp [treeEval, hk]

/-- Witness for C7 on a three node tree: root 0 with child entry 2 and
two leaves marked by child 0. -/
theorem leaf_marking_governs_eval_witness :
    (wellFormedTree ⟨fun _ _ => 0, fun _ _ => 0, fun _ k => [2, 0, 0].getD k 0,
        fun _ k => (k : ℚ)⟩ 0 3 ∧ 0 < 3) ∧
      ((∃ j, j < 3 ∧ [2, 0, 0].getD j 0 = 0 ∧
          treeEval ⟨fun _ _ => 0, fun _ _ => 0, fun _ k => [2, 0, 0].getD k 0,
            fun _ k => (k : ℚ)⟩ (fun _ => 0) 0 3 0 = (j : ℚ)) ∧ True) := by
  have hwf : wellFormedTree ⟨fun _ _ => 0, fun _ _ => 0, fun _ k => [2, 0, 0].getD k 0,
      fun _ k => (k : ℚ)⟩ 0 3 := by
    intro k hk
    interval_cases k <;> simp [List.getD]
  refine ⟨⟨hwf, by omega⟩, ?_, trivial⟩
  exact (leaf_marking_governs_eval _ (fun _ => 0) 0 3 hwf (by omega)).1

/-- Merging a leaf field twice with the same override gives the merge
once. -/
theorem fieldMerge_idem {α : Type} (b o : ACFField α) :
    fieldMerge (fieldMerge b o) o = fieldMerge b o := by
  unfold fieldMerge
  by_cases h : o.has <;> simp [h]

/-- Merging a leaf field with an unset override returns the base. -/
theorem fieldMerge_unset {α : Type} (b o : ACFField α) (h : o.has = false) :
    fieldMerge b o = b := by
  unfold fieldMerge
  simp [h]

/-- Merging a group field twice with the same override gives the merge
once, provided the inner merge is idempotent on the two values. -/
theorem groupMerge_idem {α : Type} (m : α → α → α) (b o : ACFField α)
    (hm : m (m b.value o.value) o.value = m b.value o.value) :
    groupMerge m (groupMerge m b o) o = groupMerge m b o := by
  unfold groupMerge
  simp [Bool.or_assoc, hm]

/-- Merging a group field with an unset override returns the base,
provided the inner merge is the identity on the two values. -/
theorem groupMerge_unset {α : Type} (m : α → α → α) (b o : ACFField α)
    (h : o.has = false) (hm : m b.value o.value = b.value) :
    groupMerge m b o = b := by
  unfold groupMerge
  rw [h, hm]
  simp

/-- Color merge is idempotent in the override. -/
theorem colorMerge_idem (b o : Options.Pyramid.Chns.Color) (mode : ℤ) :
    Options.Pyramid.Chns.Color.merge (Options.Pyramid.Chns.Color.merge b o mode) o mode =
      Options.Pyramid.Chns.Color.merge b o mode := by
  simp [Options.Pyramid.Chns.Color.merge, fieldMerge_idem]

/-- Color merge with an all-unset override is the identity. -/
theorem colorMerge_unset (b o : Options.Pyramid.Chns.Color) (mode : ℤ)
    (h : o.allUnset) :
    Options.Pyramid.Chns.Color.merge b o mode = b := by
  obtain ⟨h1, h2, h3⟩ := h
  rw [Options.Pyramid.Chns.Color.merge, fieldMerge_unset _ _ h1, fieldMerge_unset _ _ h2,
    fieldMerge_unset _ _ h3]

/-- GradMag merge is idempotent in the override. -/
theorem gradMagMerge_idem (b o : Options.Pyramid.Chns.GradMag) (mode : ℤ) :
    Options.Pyramid.Chns.GradMag.merge (Options.Pyramid.Chns.GradMag.merge b o mode) o mode =
      Options.Pyramid.Chns.GradMag.merge b o mode := by
  simp [Options.Pyramid.Chns.GradMag.merge, fieldMerge_idem]

/-- GradMag merge with an all-unset override is the identity. -/
theorem gradMagMerge_unset (b o : Options.Pyramid.Chns.GradMag) (mode : ℤ)
    (h : o.allUnset) :
    Options.Pyramid.Chns.GradMag.merge b o mode = b := by
  obtain ⟨h1, h2, h3, h4, h5⟩ := h
  rw [Options.Pyramid.Chns.GradMag.merge, fieldMerge_unset _ _ h1, fieldMerge_unset _ _ h2,
    fieldMerge_unset _ _ h3, fieldMerge_unset _ _ h4, fieldMerge_unset _ _ h5]

/-- GradHist merge is idempotent in the override. -/
theorem gradHistMerge_idem (b o : Options.Pyramid.Chns.GradHist) (mode : ℤ) :
    Options.Pyramid.Chns.GradHist.merge (Options.Pyramid.Chns.GradHist.merge b o mode) o mode =
      Options.Pyramid.Chns.GradHist.merge b o mode := by
  simp [Options.Pyramid.Chns.GradHist.merge, fieldMerge_idem]

/-- GradHist merge with an all-unset override is the identity. -/
theorem gradHistMerge_unset (b o : Options.Pyramid.Chns.GradHist) (mode : ℤ)
    (h : o.allUnset) :
    Options.Pyramid.Chns.GradHist.merge b o mode = b := by
  obtain ⟨h1, h2, h3, h4, h5, h6⟩ := h
  rw [Options.Pyramid.Chns.GradHist.merge, fieldMerge_unset _ _ h1, fieldMerge_unset _ _ h2,
    fieldMerge_unset _ _ h3, fieldMerge_unset _ _ h4, fieldMerge_unset _ _ h5,
    fieldMerge_unset _ _ h6]

/-- Custom merge is idempotent in the override. -/
theorem customMerge_idem (b o : Options.Pyramid.Chns.Custom) (mode : ℤ) :
    Options.Pyramid.Chns.Custom.merge (Options.Pyramid.Chns.Custom.merge b o mode) o mode =
      Options.Pyramid.Chns.Custom.merge b o mode := rfl

/-- Custom merge is the identity on the base. -/
theorem customMerge_unset (b o : Options.Pyramid.Chns.Custom) (mode : ℤ) :
    Options.Pyramid.Chns.Custom.merge b o mode = b := rfl

/-- Chns merge is idempotent in the override. -/
theorem chnsMerge_idem (b o : Options.Pyramid.Chns) (mode : ℤ) :
    Options.Pyramid.Chns.merge (Options.Pyramid.Chns.merge b o mode) o mode =
      Options.Pyramid.Chns.merge b o mode := by
  simp only [Options.Pyramid.Chns.merge]
  rw [fieldMerge_idem, fieldMerge_idem,
    groupMerge_idem _ _ _ (colorMerge_idem _ _ _),
    groupMerge_idem _ _ _ (gradMagMerge_idem _ _ _),
    groupMerge_idem _ _ _ (gradHistMerge_idem _ _ _),
    groupMerge_idem _ _ _ (customMerge_idem _ _ _)]

/-- Chns merge with an all-unset override is the identity. -/
theorem chnsMerge_unset (b o : Options.Pyramid.Chns) (mode : ℤ)
    (h : o.allUnset) :
    Options.Pyramid.Chns.merge b o mode = b := by
  obtain ⟨h1, ⟨h2, h2v⟩, ⟨h3, h3v⟩, ⟨h4, h4v⟩, h5, h6⟩ := h
  rw [Options.Pyramid.Chns.merge, fieldMerge_unset _ _ h1,
    groupMerge_unset _ _ _ h2 (colorMerge_unset _ _ _ h2v),
    groupMerge_unset _ _ _ h3 (gradMagMerge_unset _ _ _ h3v),
    groupMerge_unset _ _ _ h4 (gradHistMerge_unset _ _ _ h4v),
    groupMerge_unset _ _ _ h5 (customMerge_unset _ _ _),
    fieldMerge_unset _ _ h6]

/-- Pyramid options merge is idempotent in the override. -/
theorem pyramidMerge_idem (b o : Options.Pyramid) (mode : ℤ) :
    Options.Pyramid.merge (Options.Pyramid.merge b o mode) o mode =
      Options.Pyramid.merge b o mode := by
  simp only [Options.Pyramid.merge]
  rw [groupMerge_idem _ _ _ (chnsMerge_idem _ _ _),
    fieldMerge_idem, fieldMerge_idem, fieldMerge_idem, fieldMerge_idem, fieldMerge_idem,
    fieldMerge_idem, fieldMerge_idem, fieldMerge_idem, fieldMerge_idem]

/-- Pyramid options merge with an all-unset override is the identity. -/
theorem pyramidMerge_unset (b o : Options.Pyramid) (mode : ℤ)
    (h : o.allUnset) :
    Options.Pyramid.merge b o mode = b := by
  obtain ⟨⟨h1, h1v⟩, h2, h3, h4, h5, h6, h7, h8, h9, h10⟩ := h
  rw [Options.Pyramid.merge, groupMerge_unset _ _ _ h1 (chnsMerge_unset _ _ _ h1v),
    fieldMerge_unset _ _ h2, fieldMerge_unset _ _ h3, fieldMerge_unset _ _ h4,
    fieldMerge_unset _ _ h5, fieldMerge_unset _ _ h6, fieldMerge_unset _ _ h7,
    fieldMerge_unset _ _ h8, fieldMerge_unset _ _ h9, fieldMerge_unset _ _ h10]

/-- Nms merge is idempotent in the override. -/
theorem nmsMerge_idem (b o : Options.Nms) (mode : ℤ) :
    Options.Nms.merge (Options.Nms.merge b o mode) o mode = Options.Nms.merge b o mode := by
  simp [Options.Nms.merge, fieldMerge_idem]

/-- Nms merge with an all-unset override is the identity. -/
theorem nmsMerge_unset (b o : Options.Nms) (mode : ℤ) (h : o.allUnset) :
    Options.Nms.merge b o mode = b := by
  obtain ⟨h1, h2, h3, h4, h5, h6, h7⟩ := h
  rw [Options.Nms.merge, fieldMerge_unset _ _ h1, fieldMerge_unset _ _ h2,
    fieldMerge_unset _ _ h3, fieldMerge_unset _ _ h4, fieldMerge_unset _ _ h5,
    fieldMerge_unset _ _ h6, fieldMerge_unset _ _ h7]

/-- Boost::Tree merge is idempotent in the override. -/
theorem boostTreeMerge_idem (b o : Options.Boost.Tree) (mode : ℤ) :
    Options.Boost.Tree.merge (Options.Boost.Tree.merge b o mode) o mode =
      Options.Boost.Tree.merge b o mode := by
  simp [Options.Boost.Tree.merge, fieldMerge_idem]

/-- Boost::Tree merge with an all-unset override is the identity. -/
theorem boostTreeMerge_unset (b o : Options.Boost.Tree) (mode : ℤ) (h : o.allUnset) :
    Options.Boost.Tree.merge b o mode = b := by
  obtain ⟨h1, h2, h3, h4, h5⟩ := h
  rw [Options.Boost.Tree.merge, fieldMerge_unset _ _ h1, fieldMerge_unset _ _ h2,
    fieldMerge_unset _ _ h3, fieldMerge_unset _ _ h4, fieldMerge_unset _ _ h5]

/-- Boost merge is idempotent in the override. -/
theorem boostMerge_idem (b o : Options.Boost) (mode : ℤ) :
    Options.Boost.merge (Options.Boost.merge b o mode) o mode = Options.Boost.merge b o mode := by
  simp only [Options.Boost.merge]
  rw [groupMerge_idem _ _ _ (boostTreeMerge_idem _ _ _),
    fieldMerge_idem, fieldMerge_idem, fieldMerge_idem]

/-- Boost merge with an all-unset override is the identity. -/
theorem boostMerge_unset (b o : Options.Boost) (mode : ℤ) (h : o.allUnset) :
    Options.Boost.merge b o mode = b := by
  obtain ⟨⟨h1, h1v⟩, h2, h3, h4⟩ := h
  rw [Options.Boost.merge, groupMerge_unset _ _ _ h1 (boostTreeMerge_unset _ _ _ h1v),
    fieldMerge_unset _ _ h2, fieldMerge_unset _ _ h3, fieldMerge_unset _ _ h4]

/-- Jitter merge is idempotent in the override. -/
theorem jitterMerge_idem (b o : Options.Jitter) (mode : ℤ) :
    Options.Jitter.merge (Options.Jitter.merge b o mode) o mode =
      Options.Jitter.merge b o mode := by
  simp [Options.Jitter.merge, fieldMerge_idem]

/-- Jitter merge with an all-unset override is the identity. -/
theorem jitterMerge_unset (b o : Options.Jitter) (mode : ℤ) (h : o.allUnset) :
    Options.Jitter.merge b o mode = b := by
  rw [Options.Jitter.merge, fieldMerge_unset _ _ h]

/-- Claim C3: for every base and override options tree, merge replaces
exactly the explicitly set override fields recursively through nested
groups and inherits the rest, so merging twice with the same override
equals merging once, and merging with an override in which no field is
set returns the base unchanged. -/
theorem options_merge_idempotent_and_identity (b o e : Options) (mode : ℤ)
    (he : e.allUnset) :
    Options.merge (Options.merge b o mode) o mode = Options.merge b o mode ∧
      Options.merge b e mode = b := by
  constructor
  · simp only [Options.merge]
    rw [groupMerge_idem _ _ _ (pyramidMerge_idem _ _ _),
      groupMerge_idem _ _ _ (nmsMerge_idem _ _ _),
      groupMerge_idem _ _ _ (boostMerge_idem _ _ _),
      groupMerge_idem _ _ _ (jitterMerge_idem _ _ _),
      fieldMerge_idem, fieldMerge_idem, fieldMerge_idem, fieldMerge_idem, fieldMerge_idem,
      fieldMerge_idem, fieldMerge_idem, fieldMerge_idem, fieldMerge_idem, fieldMerge_idem,
      fieldMerge_idem, fieldMerge_idem, fieldMerge_idem, fieldMerge_idem, fieldMerge_idem,
      fieldMerge_idem, fieldMerge_idem, fieldMerge_idem]
  · obtain ⟨⟨h1, h1v⟩, h2, h3, ⟨h4, h4v⟩, h5, h6, h7, h8, ⟨h9, h9v⟩, h10, h11, h12, h13,
      h14, h15, h16, h17, h18, h19, h20, ⟨h21, h21v⟩, h22⟩ := he
    rw [Options.merge, groupMerge_unset _ _ _ h1 (pyramidMerge_unset _ _ _ h1v),
      fieldMerge_unset _ _ h2, fieldMerge_unset _ _ h3,
      groupMerge_unset _ _ _ h4 (nmsMerge_unset _ _ _ h4v),
      fieldMerge_unset _ _ h5, fieldMerge_unset _ _ h6, fieldMerge_unset _ _ h7,
      fieldMerge_unset _ _ h8,
      groupMerge_unset _ _ _ h9 (boostMerge_unset _ _ _ h9v),
      fieldMerge_unset _ _ h10, fieldMerge_unset _ _ h11, fieldMerge_unset _ _ h12,
      fieldMerge_unset _ _ h13, fieldMerge_unset _ _ h14, fieldMerge_unset _ _ h15,
      fieldMerge_unset _ _ h16, fieldMerge_unset _ _ h17, fieldMerge_unset _ _ h18,
      fieldMerge_unset _ _ h19, fieldMerge_unset _ _ h20,
      groupMerge_unset _ _ _ h21 (jitterMerge_unset _ _ _ h21v),
      fieldMerge_unset _ _ h22]

/-- Witness for C3: the all-set options tree merged with itself and with
the all-unset override. -/
theorem options_merge_idempotent_and_identity_witness :
    (constOptions false).allUnset ∧
      (Options.merge (Options.merge (constOptions true) (constOptions true) 0)
          (constOptions true) 0 =
        Options.merge (constOptions true) (constOptions true) 0 ∧
        Options.merge (constOptions true) (constOptions false) 0 = constOptions true) := by
  have hu : (constOptions false).allUnset := by
    simp [Options.allUnset, Options.Pyramid.allUnset, Options.Pyramid.Chns.allUnset,
      Options.Pyramid.Chns.Color.allUnset, Options.Pyramid.Chns.GradMag.allUnset,
      Options.Pyramid.Chns.GradHist.allUnset, Options.Nms.allUnset, Options.Boost.allUnset,
      Options.Boost.Tree.allUnset, Options.Jitter.allUnset, constOptions, constPyramidOpts,
      constChns, constColor, constGradMag, constGradHist, constNms, constBoost,
      constBoostTree]
  exact ⟨hu, options_merge_idempotent_and_identity (constOptions true) (constOptions true)
    (constOptions false) 0 hu⟩

/-- The greedy suppression pass returns a sublist of its input. -/
theorem nmsMax_sublist (o : String) (v : ℚ) :
    ∀ (n : ℕ) (l : List Detection), l.length ≤ n → List.Sublist (nmsMax o v l) l := by
  intro n
  induction n with
  | zero =>
    intro l hl
    rw [List.length_eq_zero.mp (Nat.le_zero.mp hl)]
    simp [nmsMax]
  | succ m ih =>
    intro l hl
    cases l with
    | nil => simp [nmsMax]
    | cons d rest =>
      rw [nmsMax]
      refine List.Sublist.cons₂ d ?_
      have hlen : (rest.filter (fun e => decide (overlapRatio o d e ≤ v))).length ≤ m :=
        le_trans (List.length_filter_le _ _) (by simpa using hl)
      exact (ih _ hlen).trans (List.filter_sublist rest)

/-- Every two detections kept by the greedy pass, in output order, have
overlap ratio at most the threshold. -/
theorem nmsMax_pairwise (o : String) (v : ℚ) :
    ∀ (n : ℕ) (l : List Detection), l.length ≤ n →
      List.Pairwise (fun a b => overlapRatio o a b ≤ v) (nmsMax o v l) := by
  intro n
  induction n with
  | zero =>
    intro l hl
    rw [List.length_eq_zero.mp (Nat.le_zero.mp hl)]
    simp [nmsMax]
  | succ m ih =>
    intro l hl
    cases l with
    | nil => simp [nmsMax]
    | cons d rest =>
      rw [nmsMax]
      have hlen : (rest.filter (fun e => decide (overlapRatio o d e ≤ v))).length ≤ m :=
        le_trans (List.length_filter_le _ _) (by simpa using hl)
      refine List.Pairwise.cons ?_ (ih _ hlen)
      intro b hb
      have hbmem : b ∈ rest.filter (fun e => decide (overlapRatio o d e ≤ v)) :=
        (nmsMax_sublist o v _ _ hlen).subset hb
      exact of_decide_eq_true (List.mem_filter.mp hbmem).2

/-- The greedy suppression pass is the identity on a list whose pairs
already respect the overlap threshold. -/
theorem nmsMax_fix (o : String) (v : ℚ) :
    ∀ (n : ℕ) (l : List Detection), l.length ≤ n →
      List.Pairwise (fun a b => overlapRatio o a b ≤ v) l → nmsMax o v l = l := by
  intro n
  induction n with
  | zero =>
    intro l hl _
    rw [List.length_eq_zero.mp (Nat.le_zero.mp hl)]
    simp [nmsMax]
  | succ m ih =>
    intro l hl hp
    cases l with
    | nil => simp [nmsMax]
    | cons d rest =>
      rw [List.pairwise_cons] at hp
      have hfilter : rest.filter (fun e => decide (overlapRatio o d e ≤ v)) = rest :=
        List.filter_eq_self.mpr (fun b hb => decide_eq_true (hp.1 b hb))
      rw [nmsMax, hfilter, ih rest (by simpa using hl) hp.2]

/-- The ordered, thresholded candidate list is sorted by descending
score. -/
theorem bbNmsKept_sorted (p : Options.Nms) (dets : List Detection) :
    List.Sorted detGe (bbNmsKept p dets) :=
  (List.sorted_insertionSort detGe dets).filter _

/-- On a list already sorted by descending score whose scores all pass
the threshold, ordering and thresholding change nothing. -/
theorem bbNmsKept_fix (p : Options.Nms) (xs : List Detection)
    (hs : List.Sorted detGe xs) (ht : ∀ x ∈ xs, p.thr.value ≤ x.score) :
    bbNmsKept p xs = xs := by
  unfold bbNmsKept
  rw [hs.insertionSort_eq]
  exact List.filter_eq_self.mpr (fun b hb => decide_eq_true (ht b hb))

/-- Every list the partial suppressor model returns is a sublist of the
ordered, thresholded candidate list. -/
theorem bbNms_sublist_kept (p : Options.Nms) (dets out : List Detection)
    (h : bbNms p dets = some out) : List.Sublist out (bbNmsKept p dets) := by
  unfold bbNms at h
  split at h
  · rw [Option.some_inj] at h
    rw [← h]
  · split at h
    · rw [Option.some_inj] at h
      rw [← h]
      exact nmsMax_sublist _ _ _ _ le_rfl
    · exact absurd h (by simp)

/-- Every list the partial suppressor model returns is sorted by
descending score: the none and max types both process and emit the
candidates in that order. -/
theorem bbNms_modelled_sorted (p : Options.Nms) (dets out : List Detection)
    (h : bbNms p dets = some out) : List.Sorted detGe out :=
  (bbNmsKept_sorted p dets).sublist (bbNms_sublist_kept p dets out h)

/-- On the modelled none and max types, the suppressor is idempotent:
suppressing a list it has itself produced, with the same parameters,
returns that list unchanged.  The unmodelled maxg, ms and cover types
return no result, so nothing is asserted about them. -/
theorem bbNms_modelled_idempotent (p : Options.Nms) (dets out : List Detection)
    (h : bbNms p dets = some out) : bbNms p out = some out := by
  have hsorted : List.Sorted detGe out := bbNms_modelled_sorted p dets out h
  have hthr : ∀ x ∈ out, p.thr.value ≤ x.score := by
    intro x hx
    have hxk : x ∈ bbNmsKept p dets := (bbNms_sublist_kept p dets out h).subset hx
    exact of_decide_eq_true (List.mem_filter.mp hxk).2
  have hkept : bbNmsKept p out = out := bbNmsKept_fix p out hsorted hthr
  unfold bbNms at h ⊢
  by_cases htype : p.type.value = "none"
  · rw [if_pos htype, hkept]
  · by_cases hmax : p.type.value = "max"
    · rw [if_neg htype, if_pos hmax, Option.some_inj] at h
      rw [if_neg htype, if_pos hmax, hkept]
      have hpair : List.Pairwise
          (fun a b => overlapRatio p.ovrDnm.value a b ≤ p.overlap.value) out := by
        rw [← h]
        exact nmsMax_pairwise _ _ _ _ le_rfl
      rw [nmsMax_fix _ _ _ _ le_rfl hpair]
    · rw [if_neg htype, if_neg hmax] at h
      exact absurd h (by simp)

/-- The rounded scaled extent of a level is monotone in the scale. -/
theorem levelExtent_mono (d sh : ℕ) {a b : ℚ} (hab : a ≤ b) :
    levelExtent d sh a ≤ levelExtent d sh b := by
  unfold levelExtent rnd
  apply Int.floor_le_floor
  apply add_le_add_right
  rw [div_eq_mul_inv, div_eq_mul_inv]
  exact mul_le_mul_of_nonneg_right
    (mul_le_mul_of_nonneg_left hab (by positivity)) (by positivity)

/-- Claim C2: every level of a built pyramid carries the channel count
implied by the channel parameters alone, so the count is identical
across levels; level geometry is monotonically non-increasing as the
scale index increases; and when the scale list starts at 1 with a
non-degenerate base size, the finest level is exactly the padded
shrink-adjusted input size. -/
theorem pyramid_channel_and_geometry_invariants (h w padH padW : ℕ) (p : ChnsSpec)
    (scales : List ℚ) (hsorted : List.Sorted (fun a b : ℚ => b ≤ a) scales)
    (hhead : scales.head? = some 1)
    (hposh : 0 < levelExtent h p.shrink 1) (hposw : 0 < levelExtent w p.shrink 1) :
    (∀ L ∈ buildPyramid h w padH padW p scales, L.nChns = nChannels p) ∧
      List.Pairwise (fun A B : PyrLevel => B.h ≤ A.h ∧ B.w ≤ A.w)
        (buildPyramid h w padH padW p scales) ∧
      (buildPyramid h w padH padW p scales).head? = some
        { h := (levelExtent h p.shrink 1).toNat + 2 * (padH / p.shrink)
          w := (levelExtent w p.shrink 1).toNat + 2 * (padW / p.shrink)
          nChns := nChannels p
          scale := 1 } := by
  refine ⟨?_, ?_, ?_⟩
  · intro L hL
    unfold buildPyramid at hL
    rcases List.mem_map.mp hL with ⟨s, _, rfl⟩
    rfl
  · unfold buildPyramid
    rw [List.pairwise_map]
    refine List.Pairwise.imp ?_ (hsorted.filter _)
    intro a b hba
    dsimp only
    have hh := Int.toNat_le_toNat (levelExtent_mono h p.shrink hba)
    have hw := Int.toNat_le_toNat (levelExtent_mono w p.shrink hba)
    exact ⟨by omega, by omega⟩
  · cases scales with
    | nil => simp at hhead
    | cons s0 rest =>
      have hs0 : s0 = 1 := by simpa using hhead
      subst hs0
      unfold buildPyramid
      rw [List.filter_cons_of_pos (by simp [hposh, hposw])]
      simp

/-- Witness for C2: a 16 by 16 image, shrink 2, pad 2, and the scale
list (1, 1/2). -/
theorem pyramid_channel_and_geometry_invariants_witness :
    (List.Sorted (fun a b : ℚ => b ≤ a) [1, 1/2] ∧
      ([1, (1:ℚ)/2]).head? = some 1 ∧
      0 < levelExtent 16 2 1 ∧ 0 < levelExtent 16 2 1) ∧
      ((∀ L ∈ buildPyramid 16 16 2 2 ⟨2, true, true, true, 6, 2, false⟩ [1, 1/2],
          L.nChns = nChannels ⟨2, true, true, true, 6, 2, false⟩) ∧
        List.Pairwise (fun A B : PyrLevel => B.h ≤ A.h ∧ B.w ≤ A.w)
          (buildPyramid 16 16 2 2 ⟨2, true, true, true, 6, 2, false⟩ [1, 1/2]) ∧
        (buildPyramid 16 16 2 2 ⟨2, true, true, true, 6, 2, false⟩ [1, 1/2]).head? = some
          { h := (levelExtent 16 2 1).toNat + 2 * (2 / 2)
            w := (levelExtent 16 2 1).toNat + 2 * (2 / 2)
            nChns := nChannels ⟨2, true, true, true, 6, 2, false⟩
            scale := 1 }) := by
  have hsorted : List.Sorted (fun a b : ℚ => b ≤ a) [1, 1/2] := by
    norm_num [List.sorted_cons]
  have hpos : 0 < levelExtent 16 2 1 := by
    norm_num [levelExtent, rnd]
  exact ⟨⟨hsorted, rfl, hpos, hpos⟩,
    pyramid_channel_and_geometry_invariants 16 16 2 2 ⟨2, true, true, true, 6, 2, false⟩
      [1, 1/2] hsorted rfl hpos hpos⟩

/-- Re-slicing the vertical concatenation of equal-height planes in row
blocks of that height recovers exactly the original planes in order. -/
theorem slices_of_flatten (hh : ℕ) :
    ∀ (stack : List Plane), (∀ q ∈ stack, q.length = hh) →
      (List.range stack.length).map (fun j => ((stack.flatten).drop (j * hh)).take hh) =
        stack := by
  intro stack
  induction stack with
  | nil => intro _; rfl
  | cons p rest ih =>
    intro hq
    have hp : p.length = hh := hq p (List.mem_cons_self p rest)
    rw [List.length_cons, List.range_succ_eq_map, List.map_cons, List.map_map]
    refine List.cons_eq_cons.mpr ⟨?_, ?_⟩
    · rw [Nat.zero_mul, List.flatten_cons, List.drop_zero, ← hp, List.take_left]
    · have hrest := ih (fun q hq2 => hq q (List.mem_cons_of_mem p hq2))
      refine Eq.trans (List.map_congr_left ?_) hrest
      intro j _
      show ((p :: rest).flatten.drop ((j + 1) * hh)).take hh =
        ((rest.flatten).drop (j * hh)).take hh
      rw [List.flatten_cons, Nat.succ_mul, Nat.add_comm (j * hh) hh, ← hp, List.drop_append]

/-- Claim C10: for every non-empty iterator range of channel stacks
whose planes all share one positive height, fuseChannels returns exactly
the planes of the inputs concatenated in iteration order, so the output
plane count is the sum of the input plane counts and the j-th output
plane is the j-th plane of the concatenation. -/
theorem fuseChannels_preserves_order_and_count (inputs : List MatP) (hh : ℕ)
    (hpos : 0 < hh) (hne : inputs.flatten ≠ [])
    (hlen : ∀ mp ∈ inputs, ∀ q ∈ mp, q.length = hh) :
    fuseChannels inputs = inputs.flatten ∧
      (fuseChannels inputs).length = (inputs.map List.length).sum := by
  have hstack : ∀ q ∈ inputs.flatten, q.length = hh := by
    intro q hqmem
    rcases List.mem_flatten.mp hqmem with ⟨mp, hmp, hqmp⟩
    exact hlen mp hmp q hqmp
  have hmain : fuseChannels inputs = inputs.flatten := by
    unfold fuseChannels
    cases hflat : inputs.flatten with
    | nil => exact absurd hflat hne
    | cons p rest =>
      have hq : ∀ q ∈ p :: rest, q.length = hh := by
        rw [← hflat]; exact fun q hqm => hstack q hqm
      have hp : p.length = hh := hq p (List.mem_cons_self p rest)
      have hbase : ((p :: rest).flatten).length = (p :: rest).length * hh := by
        rw [List.length_flatten]
        have : (p :: rest).map List.length = List.replicate (p :: rest).length hh := by
          rw [List.eq_replicate_iff]
          refine ⟨by simp, ?_⟩
          intro x hx
          rcases List.mem_map.mp hx with ⟨q, hqm, rfl⟩
          exact hq q hqm
        rw [this, List.sum_replicate, smul_eq_mul]
      show fuseStack (p :: rest) = p :: rest
      rw [fuseStack]
      have hhne : p.length = 0 ↔ False := by
        constructor
        · intro h0; rw [hp] at h0; omega
        · intro hF; exact hF.elim
      simp only [hp, vconcatRows, hbase]
      rw [if_neg (by omega)]
      have hn : ((p :: rest).length * hh + hh - 1) / hh = (p :: rest).length := by
        have : (p :: rest).length * hh + hh - 1 = hh * (p :: rest).length + (hh - 1) := by
          rw [Nat.mul_comm]; omega
        rw [this, Nat.mul_add_div hpos, Nat.div_eq_of_lt (by omega), Nat.add_zero]
      rw [hn, List.drop_length, List.append_nil]
      exact slices_of_flatten hh (p :: rest) hq
  refine ⟨hmain, ?_⟩
  rw [hmain, List.length_flatten]

/-- Witness for C10: two stacks of one 1 by 1 plane each. -/
theorem fuseChannels_preserves_order_and_count_witness :
    (0 < 1 ∧ sampleStacks.flatten ≠ [] ∧
      (∀ mp ∈ sampleStacks, ∀ q ∈ mp, q.length = 1)) ∧
      (fuseChannels sampleStacks = sampleStacks.flatten ∧
        (fuseChannels sampleStacks).length = (sampleStacks.map List.length).sum) := by
  have h1 : sampleStacks.flatten ≠ [] := by decide
  have h2 : ∀ mp ∈ sampleStacks, ∀ q ∈ mp, q.length = 1 := by decide
  exact ⟨⟨Nat.one_pos, h1, h2⟩,
    fuseChannels_preserves_order_and_count sampleStacks 1 Nat.one_pos h1 h2⟩

/-- Scaling by one is the identity on matrices. -/
theorem matScale_one (a : FaceMat) : matScale 1 a = a := by
  simp [matScale]

/-- Two scalings compose by multiplying the scalars. -/
theorem matScale_scale (c d : ℚ) (a : FaceMat) :
    matScale c (matScale d a) = matScale (c * d) a := by
  simp [matScale, List.map_map, Function.comp, mul_assoc]

/-- Elementwise addition is associative. -/
theorem matAdd_assoc : ∀ a b c : FaceMat, matAdd (matAdd a b) c = matAdd a (matAdd b c)
  | [], _, _ => rfl
  | _ :: _, [], _ => rfl
  | _ :: _, _ :: _, [] => rfl
  | a :: as, b :: bs, c :: cs => by
    simp only [matAdd, List.zipWith_cons_cons]
    exact List.cons_eq_cons.mpr ⟨add_assoc a b c, matAdd_assoc as bs cs⟩

/-- Scaling distributes over elementwise addition. -/
theorem matScale_add : ∀ (c : ℚ) (a b : FaceMat),
    matScale c (matAdd a b) = matAdd (matScale c a) (matScale c b)
  | _, [], _ => rfl
  | _, _ :: _, [] => rfl
  | c, a :: as, b :: bs => by
    simp only [matAdd, matScale, List.zipWith_cons_cons, List.map_cons]
    exact List.cons_eq_cons.mpr ⟨mul_add c a b, matScale_add c as bs⟩

/-- The moving average update in closed form: adding cc times the
residual is a convex combination of the old mean and the sample. -/
theorem cma_linear : ∀ (m x : FaceMat) (cc : ℚ),
    matAdd m (matScale cc (matSub x m)) = matAdd (matScale (1 - cc) m) (matScale cc x)
  | [], _, _ => rfl
  | _ :: _, [], _ => rfl
  | m :: ms, x :: xs, cc => by
    simp only [matAdd, matSub, matScale, List.zipWith_cons_cons, List.map_cons]
    refine List.cons_eq_cons.mpr ⟨by ring, cma_linear ms xs cc⟩

/-- Folding matAdd from a shifted seed pulls the shift out front. -/
theorem foldl_matAdd_shift : ∀ (ys : List FaceMat) (z y : FaceMat),
    ys.foldl matAdd (matAdd z y) = matAdd z (ys.foldl matAdd y)
  | [], _, _ => rfl
  | w :: ws, z, y => by
    show ws.foldl matAdd (matAdd (matAdd z y) w) = matAdd z ((w :: ws).foldl matAdd y)
    rw [matAdd_assoc, foldl_matAdd_shift ws z (matAdd y w)]
    rfl

/-- The sum of the concatenation of two non-empty sample lists is the
elementwise sum of their sums. -/
theorem sumSamples_append (t u : List FaceMat) (ht : t ≠ []) (hu : u ≠ []) :
    sumSamples (t ++ u) = matAdd (sumSamples t) (sumSamples u) := by
  cases t with
  | nil => exact absurd rfl ht
  | cons x xs =>
    cases u with
    | nil => exact absurd rfl hu
    | cons y ys =>
      show ((xs ++ y :: ys).foldl matAdd x) = matAdd (xs.foldl matAdd x) (ys.foldl matAdd y)
      rw [List.foldl_append]
      show (ys.foldl matAdd (matAdd (xs.foldl matAdd x) y)) = _
      rw [foldl_matAdd_shift]

/-- Accumulating per-chunk sums over a list of non-empty chunks equals
the sum of the flattened samples. -/
theorem sumSamples_chunks : ∀ (ts : List (List FaceMat)) (t0 : List FaceMat),
    t0 ≠ [] → (∀ t ∈ ts, t ≠ []) →
    ts.foldl (fun acc t => matAdd acc (sumSamples t)) (sumSamples t0) =
      sumSamples ((t0 :: ts).flatten)
  | [], t0, _, _ => by simp
  | t :: ts, t0, ht0, hts => by
    show ts.foldl (fun acc u => matAdd acc (sumSamples u))
        (matAdd (sumSamples t0) (sumSamples t)) = _
    rw [← sumSamples_append t0 t ht0 (hts t (List.mem_cons_self t ts)),
      sumSamples_chunks ts (t0 ++ t)
        (by cases t0 with | nil => exact absurd rfl ht0 | cons a as => simp)
        (fun u hu => hts u (List.mem_cons_of_mem t hu))]
    simp [List.append_assoc]

/-- Feeding samples into the running mean from an exact mean state of n
earlier samples yields the exact mean of all samples, under exact
arithmetic. -/
theorem foldl_updateMean : ∀ (l : List FaceMat) (S : FaceMat) (n : ℕ), 0 < n →
    l.foldl updateMeanStep (some (matScale (1 / (n : ℚ)) S), n) =
      (some (matScale (1 / ((n + l.length : ℕ) : ℚ)) (l.foldl matAdd S)), n + l.length)
  | [], S, n, _ => by simp
  | x :: l, S, n, hn => by
    have hnz : ((n : ℚ)) ≠ 0 := Nat.cast_ne_zero.mpr (Nat.pos_iff_ne_zero.mp hn)
    have hstep : updateMeanStep (some (matScale (1 / (n : ℚ)) S), n) x =
        (some (matScale (1 / ((n : ℚ) + 1)) (matAdd S x)), n + 1) := by
      have hred : cumulativeMovingAverage (some (matScale (1 / (n : ℚ)) S)) x (n + 1) =
          matAdd (matScale (1 / (n : ℚ)) S)
            (matScale (1 / ((n + 1 : ℕ) : ℚ)) (matSub x (matScale (1 / (n : ℚ)) S))) := rfl
      show (some (cumulativeMovingAverage (some (matScale (1 / (n : ℚ)) S)) x (n + 1)), n + 1) = _
      rw [hred, show (((n + 1 : ℕ)) : ℚ) = (n : ℚ) + 1 by push_cast; ring, cma_linear,
        matScale_scale, matScale_add,
        show (1 - 1 / ((n : ℚ) + 1)) * (1 / (n : ℚ)) = 1 / ((n : ℚ) + 1) by field_simp; ring]
    rw [List.foldl_cons, hstep]
    have hlen : n + (x :: l).length = n + 1 + l.length := by
      simp only [List.length_cons]
      omega
    rw [hlen]
    have hrec := foldl_updateMean l (matAdd S x) (n + 1) (by omega)
    rw [show (((n + 1 : ℕ)) : ℚ) = (n : ℚ) + 1 by push_cast; ring] at hrec
    exact hrec

/-- The jitterer state after a non-empty sample list holds the sample
count and the exact arithmetic mean of the samples. -/
theorem jittererState_mean (t : List FaceMat) (hne : t ≠ []) :
    (jittererState t).2 = t.length ∧
      (jittererState t).1 = some (matScale (1 / (t.length : ℚ)) (sumSamples t)) := by
  cases t with
  | nil => exact absurd rfl hne
  | cons x xs =>
    unfold jittererState
    rw [List.foldl_cons]
    have hstep : updateMeanStep (none, 0) x = (some (matScale (1 / ((1 : ℕ) : ℚ)) x), 1) := by
      have hred : cumulativeMovingAverage none x (0 + 1) = x := rfl
      show (some (cumulativeMovingAverage none x (0 + 1)), 0 + 1) = _
      rw [hred, show ((1 : ℕ) : ℚ) = 1 by norm_num, show (1 : ℚ) / 1 = 1 by norm_num,
        matScale_one]
    rw [hstep, foldl_updateMean xs x 1 Nat.one_pos]
    have hlen : (1 + xs.length : ℕ) = (x :: xs).length := by
      simp only [List.length_cons]
      omega
    constructor
    · show 1 + xs.length = (x :: xs).length
      exact hlen
    · show some (matScale (1 / (((1 + xs.length : ℕ)) : ℚ)) (xs.foldl matAdd x)) = _
      rw [hlen]
      rfl

/-- Accumulating count-weighted per-thread means over non-empty threads
onto a mean of weight 1/total accumulates the per-thread sums scaled by
1/total. -/
theorem foldl_meanFace (total : ℕ) : ∀ (ts : List (List FaceMat)) (A : FaceMat),
    (∀ t ∈ ts, t ≠ []) →
    (ts.map jittererState).foldl (meanFaceStep total) (some (matScale (1 / (total : ℚ)) A)) =
      some (matScale (1 / (total : ℚ)) (ts.foldl (fun acc t => matAdd acc (sumSamples t)) A))
  | [], _, _ => by simp
  | t :: ts, A, hts => by
    have htne : t ≠ [] := hts t (List.mem_cons_self t ts)
    obtain ⟨hcount, hmu⟩ := jittererState_mean t htne
    have hlnz : ((t.length : ℚ)) ≠ 0 := by
      cases t with
      | nil => exact absurd rfl htne
      | cons a as => exact Nat.cast_ne_zero.mpr (by simp)
    have hstep : meanFaceStep total (some (matScale (1 / (total : ℚ)) A)) (jittererState t) =
        some (matAdd (matScale (1 / (total : ℚ)) A)
          (matScale ((t.length : ℚ) / (total : ℚ))
            (matScale (1 / (t.length : ℚ)) (sumSamples t)))) := by
      unfold meanFaceStep
      rw [hmu, hcount]
    have hsc : ((t.length : ℚ) / (total : ℚ)) * (1 / (t.length : ℚ)) = 1 / (total : ℚ) := by
      rcases eq_or_ne ((total : ℚ)) 0 with h0 | h0
      · rw [h0, div_zero, zero_mul, div_zero]
      · field_simp
        ring
    rw [List.map_cons, List.foldl_cons, hstep, matScale_scale, hsc, ← matScale_add,
      foldl_meanFace total ts (matAdd A (sumSamples t))
        (fun u hu => hts u (List.mem_cons_of_mem t hu))]
    rfl

/-- Claim C9: for every non-empty family of non-empty per-thread sample
lists, the cumulative moving average state of each thread is exactly the
arithmetic mean of the samples it has seen, and computeMeanFace, the
count-weighted combination of the per-thread means, is exactly the
arithmetic mean of the union of all samples across threads, under exact
arithmetic. -/
theorem running_mean_matches_arithmetic_mean (threads : List (List FaceMat)) (L : ℕ)
    (hne : threads ≠ []) (htne : ∀ t ∈ threads, t ≠ [])
    (hlen : ∀ t ∈ threads, ∀ m ∈ t, m.length = L) :
    (∀ t ∈ threads, (jittererState t).2 = t.length ∧
        (jittererState t).1 = some (matScale (1 / (t.length : ℚ)) (sumSamples t))) ∧
      computeMeanFace threads =
        some (matScale (1 / (threads.flatten.length : ℚ)) (sumSamples threads.flatten)) := by
  refine ⟨fun t ht => jittererState_mean t (htne t ht), ?_⟩
  have htotal : ((threads.map jittererState).map Prod.snd).sum = threads.flatten.length := by
    rw [List.map_map, List.length_flatten]
    congr 1
    apply List.map_congr_left
    intro t ht
    exact (jittererState_mean t (htne t ht)).1
  have hgoal : (threads.map jittererState).foldl
      (meanFaceStep (((threads.map jittererState).map Prod.snd).sum)) none =
      some (matScale (1 / (threads.flatten.length : ℚ)) (sumSamples threads.flatten)) := by
    cases threads with
    | nil => exact absurd rfl hne
    | cons t ts =>
      have htne1 : t ≠ [] := htne t (List.mem_cons_self t ts)
      have htsne : ∀ u ∈ ts, u ≠ [] := fun u hu => htne u (List.mem_cons_of_mem t hu)
      obtain ⟨hcount, hmu⟩ := jittererState_mean t htne1
      have hlnz : ((t.length : ℚ)) ≠ 0 := by
        cases t with
        | nil => exact absurd rfl htne1
        | cons a as => exact Nat.cast_ne_zero.mpr (by simp)
      rw [List.map_cons, List.foldl_cons]
      have hstep0 : meanFaceStep (((jittererState t :: ts.map jittererState).map Prod.snd).sum)
          none (jittererState t) =
          some (matScale ((t.length : ℚ) /
              ((((jittererState t :: ts.map jittererState).map Prod.snd).sum : ℕ) : ℚ))
            (matScale (1 / (t.length : ℚ)) (sumSamples t))) := by
        unfold meanFaceStep
        rw [hmu, hcount]
      have hsc : ∀ T : ℕ, ((t.length : ℚ) / (T : ℚ)) * (1 / (t.length : ℚ)) = 1 / (T : ℚ) := by
        intro T
        rcases eq_or_ne ((T : ℚ)) 0 with h0 | h0
        · rw [h0, div_zero, zero_mul, div_zero]
        · field_simp
          ring
      rw [hstep0, matScale_scale, hsc, foldl_meanFace _ ts (sumSamples t) htsne,
        sumSamples_chunks ts t htne1 htsne]
      have := htotal
      rw [List.map_cons] at this
      rw [this]
  exact hgoal

/-- Witness for C9: two threads holding one two-pixel sample each. -/
theorem running_mean_matches_arithmetic_mean_witness :
    (sampleThreads ≠ [] ∧ (∀ t ∈ sampleThreads, t ≠ []) ∧
      (∀ t ∈ sampleThreads, ∀ m ∈ t, m.length = 2)) ∧
      ((∀ t ∈ sampleThreads, (jittererState t).2 = t.length ∧
          (jittererState t).1 = some (matScale (1 / (t.length : ℚ)) (sumSamples t))) ∧
        computeMeanFace sampleThreads =
          some (matScale (1 / (sampleThreads.flatten.length : ℚ))
            (sumSamples sampleThreads.flatten))) := by
  have h1 : sampleThreads ≠ [] := by decide
  have h2 : ∀ t ∈ sampleThreads, t ≠ [] := by decide
  have h3 : ∀ t ∈ sampleThreads, ∀ m ∈ t, m.length = 2 := by decide
  exact ⟨⟨h1, h2, h3⟩, running_mean_matches_arithmetic_mean sampleThreads 2 h1 h2 h3⟩
